import Mathlib

/-!
Shallow embedding of the `tree` bubble widget (navigable tree-view component):
the node/layout/navigation core from the repository sources.

Conventions of the embedding:
* Go `int` is modelled as `Int`; Go integer division (`/`, truncating towards
  zero) is `Int.tdiv`.
* A Go `*Node` together with the lipgloss renderer tree it wraps is modelled
  as one inductive `Node` carrying the renderer's children-window offsets
  (`offStart`, `offEnd`).  The renderer's `tree.Children()` returns the
  children with indices in `[offStart, len - offEnd)`; `tree.Offset(a, b)`
  stores the pair.  This window is how the widget hides the children of a
  closed node.
* In-place pointer mutation is modelled by rebuilding the tree; the walks that
  in Go iterate over the slice returned by `Children()` and mutate through the
  contained pointers are modelled as scans over the full child list that
  rewrite exactly the elements whose index lies in the window.
-/

namespace BubblesTree

/-- The `Node` struct (tree.go): open/closed state, the renderer
children-window (`offStart`/`offEnd`, set through `tree.Offset`), and the
cached layout attributes `size`, `yOffset`, `depth`.  The display payload is
modelled as a `Nat` tag so that nodes can be told apart. -/
inductive Node : Type where
  | mk (value : Nat) (isRoot : Bool) (open_ : Bool) (initialClosed : Bool)
       (offStart : Nat) (offEnd : Nat)
       (size : Int) (yOffset : Int) (depth : Int)
       (children : List Node)

namespace Node

def value : Node → Nat
  | .mk v _ _ _ _ _ _ _ _ _ => v

def isRoot : Node → Bool
  | .mk _ ir _ _ _ _ _ _ _ _ => ir

def open_ : Node → Bool
  | .mk _ _ o _ _ _ _ _ _ _ => o

def initialClosed : Node → Bool
  | .mk _ _ _ ic _ _ _ _ _ _ => ic

def offStart : Node → Nat
  | .mk _ _ _ _ os _ _ _ _ _ => os

def offEnd : Node → Nat
  | .mk _ _ _ _ _ oe _ _ _ _ => oe

def size : Node → Int
  | .mk _ _ _ _ _ _ sz _ _ _ => sz

def yOffset : Node → Int
  | .mk _ _ _ _ _ _ _ yo _ _ => yo

def depth : Node → Int
  | .mk _ _ _ _ _ _ _ _ d _ => d

def children : Node → List Node
  | .mk _ _ _ _ _ _ _ _ _ cs => cs

def withOpen : Node → Bool → Node
  | .mk v ir _ ic os oe sz yo d cs, o => .mk v ir o ic os oe sz yo d cs

def withInitialClosed : Node → Bool → Node
  | .mk v ir o _ os oe sz yo d cs, ic => .mk v ir o ic os oe sz yo d cs

/-- The renderer's `tree.Offset(a, b)` call: store the children-window pair. -/
def treeOffset : Node → Nat → Nat → Node
  | .mk v ir o ic _ _ sz yo d cs, a, b => .mk v ir o ic a b sz yo d cs

def withSize : Node → Int → Node
  | .mk v ir o ic os oe _ yo d cs, sz => .mk v ir o ic os oe sz yo d cs

def withChildren : Node → List Node → Node
  | .mk v ir o ic os oe sz yo d _, cs => .mk v ir o ic os oe sz yo d cs

/-- The slice of children with full-list index in `[lo, hi)`,
built in order — the loop body of the renderer's `Children()`. -/
def winScan : List Node → Nat → Nat → Nat → List Node
  | [], _, _, _ => []
  | c :: rest, j, lo, hi =>
    if lo ≤ j ∧ j < hi then c :: winScan rest (j + 1) lo hi
    else winScan rest (j + 1) lo hi

/-- The renderer's `tree.Children()`: the children whose index lies inside
the stored window `[offStart, len - offEnd)`. -/
def visChildren (t : Node) : List Node :=
  winScan t.children 0 t.offStart (t.children.length - t.offEnd)

/-- `IsOpen` (tree.go). -/
def IsOpen (t : Node) : Bool := t.open_

/-- `Size` (tree.go): the cached size field. -/
def Size (t : Node) : Int := t.size

/-- `Depth` (tree.go). -/
def Depth (t : Node) : Int := t.depth

/-- `Close` (tree.go): set `initialClosed` and clear `open`, then reset the
renderer window and hide all children behind it.  The cached `size` is not
touched. -/
def Close (t : Node) : Node :=
  let t1 := ((t.withInitialClosed true).withOpen false).treeOffset 0 0
  t1.treeOffset t1.visChildren.length 0

/-- `Open` (tree.go): set `open` and reset the renderer window. -/
def Open (t : Node) : Node := (t.withOpen true).treeOffset 0 0

/-- The leaf `Node` built by `Child` for a raw payload: `size = 1`,
`open = false`, everything else zero. -/
def mkLeaf (v : Nat) : Node := .mk v false false false 0 0 1 0 0 []

/-- One step of `Child` (tree.go): add one child (either an existing subtree
or a raw payload), add its cached size to the parent's cached size, and
re-`Close` the parent when it was initially closed. -/
def Child1 (t : Node) (child : Node ⊕ Nat) : Node :=
  match child with
  | .inl c =>
    let t1 := (t.withSize (t.size + c.size)).withChildren (t.children ++ [c])
    if t1.initialClosed then t1.Close else t1
  | .inr v =>
    let item := mkLeaf v
    let t1 := (t.withSize (t.size + item.size)).withChildren (t.children ++ [item])
    if t1.initialClosed then t1.Close else t1

/-- `Child` (tree.go): variadic child attachment, left to right. -/
def Child (t : Node) (children : List (Node ⊕ Nat)) : Node :=
  children.foldl Child1 t

end Node

/-- `Root` (tree.go): a fresh root node, `size = 1`, open. -/
def Root (v : Nat) : Node := .mk v true true false 0 0 1 0 0 []

/-! ### The layout passes (`setAttributes`, tree.go)

Each pass walks `t.tree.Children()` — the renderer window — and mutates the
nodes it reaches through the slice's pointers.  The scans below rewrite
exactly the elements of the full child list whose index lies in the window
`[lo, hi)` and leave the hidden elements untouched, which is what the Go
code's in-place mutation does. -/

mutual
/-- `setDepths` (tree.go). -/
def setDepths : Node → Int → Node
  | .mk v ir o ic os oe sz yo _ cs, depth =>
    .mk v ir o ic os oe sz yo depth (setDepthsScan cs 0 os (cs.length - oe) (depth + 1))

def setDepthsScan : List Node → Nat → Nat → Nat → Int → List Node
  | [], _, _, _, _ => []
  | c :: rest, j, lo, hi, d =>
    if lo ≤ j ∧ j < hi then setDepths c d :: setDepthsScan rest (j + 1) lo hi d
    else c :: setDepthsScan rest (j + 1) lo hi d
end

mutual
/-- `setSizes` (tree.go): post-order size computation over the renderer
window; returns the updated node and the size it computed
(`size = 1 + len(Children()) + Σ (setSizes(child) - 1)`). -/
def setSizes : Node → Node × Int
  | .mk v ir o ic os oe _ yo d cs =>
    let r := setSizesScan cs 0 os (cs.length - oe)
    let size := 1 + (r.2.2 : Int) + r.2.1
    (.mk v ir o ic os oe size yo d r.1, size)

/-- Scan for `setSizes`: returns the rewritten list, the accumulated
`Σ (setSizes(child) - 1)` over the window, and the window's length
(`children.Length()` of the slice). -/
def setSizesScan : List Node → Nat → Nat → Nat → List Node × Int × Nat
  | [], _, _, _ => ([], 0, 0)
  | c :: rest, j, lo, hi =>
    if lo ≤ j ∧ j < hi then
      let r := setSizes c
      let rr := setSizesScan rest (j + 1) lo hi
      (r.1 :: rr.1, (r.2 - 1) + rr.2.1, rr.2.2 + 1)
    else
      let rr := setSizesScan rest (j + 1) lo hi
      (c :: rr.1, rr.2.1, rr.2.2)
end

mutual
/-- `setYOffsets` (tree.go) with the node's own offset already assigned:
each child in the renderer window receives
`yOffset = t.yOffset + above + i + 1` (`i` its index in the window, `above`
the accumulated `size - 1` of the previous window children), then is walked
recursively. -/
def setYOffsetsAt : Node → Int → Node
  | .mk v ir o ic os oe sz _ d cs, y =>
    .mk v ir o ic os oe sz y d (setYOffsetsScan cs 0 os (cs.length - oe) y 0 0)

def setYOffsetsScan : List Node → Nat → Nat → Nat → Int → Int → Int → List Node
  | [], _, _, _, _, _, _ => []
  | c :: rest, j, lo, hi, ty, above, i =>
    if lo ≤ j ∧ j < hi then
      let c1 := setYOffsetsAt c (ty + above + i + 1)
      c1 :: setYOffsetsScan rest (j + 1) lo hi ty (above + (c1.size - 1)) (i + 1)
    else c :: setYOffsetsScan rest (j + 1) lo hi ty above i
end

/-- `setYOffsets` (tree.go): the root keeps its own `yOffset`. -/
def setYOffsets (t : Node) : Node := setYOffsetsAt t t.yOffset

/-- `Model.setAttributes` (tree.go): the three ordered layout passes. -/
def setAttributes (t : Node) : Node := setYOffsets (setSizes (setDepths t 0)).1

mutual
/-- `findNode` (tree.go): DFS over the renderer-visible nodes for the node
whose cached `yOffset` equals the target; `none` models the nil pointer. -/
def findNode : Node → Int → Option Node
  | t@(.mk _ _ _ _ os oe _ yo _ cs), y =>
    if yo = y then some t
    else findNodeScan cs 0 os (cs.length - oe) y

def findNodeScan : List Node → Nat → Nat → Nat → Int → Option Node
  | [], _, _, _, _ => none
  | c :: rest, j, lo, hi, y =>
    if lo ≤ j ∧ j < hi then
      match findNode c y with
      | some found => some found
      | none => findNodeScan rest (j + 1) lo hi y
    else findNodeScan rest (j + 1) lo hi y
end

mutual
/-- Instrumented variant of `findNode` returning the full-child-list index
path of the found node instead of the node itself.  It performs exactly the
same search; the path stands in for the Go pointer identity so that the
in-place mutation done through the pointer can be replayed functionally. -/
def findPath : Node → Int → Option (List Nat)
  | .mk _ _ _ _ os oe _ yo _ cs, y =>
    if yo = y then some []
    else findPathScan cs 0 os (cs.length - oe) y

def findPathScan : List Node → Nat → Nat → Nat → Int → Option (List Nat)
  | [], _, _, _, _ => none
  | c :: rest, j, lo, hi, y =>
    if lo ≤ j ∧ j < hi then
      match findPath c y with
      | some p => some (j :: p)
      | none => findPathScan rest (j + 1) lo hi y
    else findPathScan rest (j + 1) lo hi y
end

/-- Dereference a full-child-list index path. -/
def getPath : Node → List Nat → Option Node
  | t, [] => some t
  | t, idx :: p =>
    match t.children[idx]? with
    | some c => getPath c p
    | none => none

/-- Rewrite the node at a full-child-list index path (the functional replay
of a mutation through a Go pointer; paths produced by `findPath` are always
valid, on an invalid path nothing happens). -/
def updateAt : Node → List Nat → (Node → Node) → Node
  | t, [], f => f t
  | t, idx :: p, f =>
    match t.children[idx]? with
    | some c => t.withChildren (t.children.set idx (updateAt c p f))
    | none => t

/-! ### The model (tree.go `Model`, `Update`, `updateViewport`)

The scrollable viewport is an external component (`bubbles/viewport`), not
part of this repository.  Modelled from the spec: the Viewport Synchronizer
state is a window top `YOffset` and a window height `Height` over the
flattened visible lines; the widget's `SetContent(root.String())` renders one
line per visible node, so the content's total line count is `root.size`, and
the code's `VisibleLineCount` is the spec's window height `H`;
`SetYOffset` stores the given window top. -/
structure Viewport where
  Height : Int
  YOffset : Int
  totalLines : Int

/-- The model fields the navigation core uses (tree.go `Model`; the
style/help plumbing is presentation-layer and carries no state the core
reads). -/
structure Model where
  ScrollOff : Int
  root : Node
  viewport : Viewport
  yOffset : Int

/-- The input commands of the core (tree.go `KeyMap`; `Toggle`/`OpenCmd`/
`CloseCmd` are the node commands, the rest are cursor movements). -/
inductive Msg : Type where
  | Down | Up | PageDown | PageUp | HalfPageDown | HalfPageUp
  | GoToTop | GoToBottom | Toggle | OpenCmd | CloseCmd
deriving DecidableEq

/-- `Model.updateViewport` (tree.go): clamp the cursor into
`[0, root.size - 1]`, re-render the content, and, for a nonzero movement,
shift the window so the cursor keeps `min(ScrollOff, height/2)` lines of
context, clamped at the content boundaries. -/
def Model.updateViewport (m : Model) (movement : Int) : Model :=
  let y := max (min (m.root.size - 1) (m.yOffset + movement)) 0
  let vp0 : Viewport := { m.viewport with totalLines := m.root.size }
  if movement = 0 then { m with yOffset := y, viewport := vp0 }
  else
    let height := vp0.Height
    let scrolloff := min m.ScrollOff (Int.tdiv height 2)
    let minTop := max (y - scrolloff) 0
    let minBottom := min (vp0.totalLines - 1) (y + scrolloff)
    if vp0.YOffset > minTop then
      { m with yOffset := y, viewport := { vp0 with YOffset := minTop } }
    else if vp0.YOffset + height < minBottom + 1 then
      { m with yOffset := y, viewport := { vp0 with YOffset := minBottom - height + 1 } }
    else { m with yOffset := y, viewport := vp0 }

/-- The node-local mutation of `Model.toggleNode` (tree.go): set `open`,
reset the renderer window, and when closing hide all children behind it. -/
def toggleMut (open_ : Bool) (node : Node) : Node :=
  let n1 := (node.withOpen open_).treeOffset 0 0
  if open_ then n1 else n1.treeOffset n1.visChildren.length 0

/-- `Model.toggleNode` (tree.go), with the found node's pointer replaced by
its path: mutate the node, recompute the whole layout, then move the cursor
by `m.yOffset - node.yOffset` where `node.yOffset` is the node's freshly
recomputed offset (the cursor follows the toggled node). -/
def Model.toggleNode (m : Model) (p : List Nat) (open_ : Bool) : Model :=
  let root2 := setAttributes (updateAt m.root p (toggleMut open_))
  let nodeY := ((getPath root2 p).map Node.yOffset).getD 0
  Model.updateViewport { m with root := root2 } (m.yOffset - nodeY)

/-- `Model.Update` (tree.go) restricted to the core commands: movements go
through `updateViewport`; `Toggle`/`Open`/`Close` resolve the node at the
cursor offset with `findNode` and silently do nothing when no node matches.
(`findPath`/`getPath` replay the pointer returned by `findNode`.) -/
def Model.update (m : Model) (msg : Msg) : Model :=
  match msg with
  | .Down => m.updateViewport 1
  | .Up => m.updateViewport (-1)
  | .PageDown => m.updateViewport m.viewport.Height
  | .PageUp => m.updateViewport (-m.viewport.Height)
  | .HalfPageDown => m.updateViewport (Int.tdiv m.viewport.Height 2)
  | .HalfPageUp => m.updateViewport (Int.tdiv (-m.viewport.Height) 2)
  | .GoToTop => m.updateViewport (-m.yOffset)
  | .GoToBottom => m.updateViewport m.root.size
  | .Toggle =>
    match findPath m.root m.yOffset with
    | none => m
    | some p =>
      match getPath m.root p with
      | none => m
      | some node => m.toggleNode p (!node.IsOpen)
  | .OpenCmd =>
    match findPath m.root m.yOffset with
    | none => m
    | some p => m.toggleNode p true
  | .CloseCmd =>
    match findPath m.root m.yOffset with
    | none => m
    | some p => m.toggleNode p false

/-- A sequence of input events, oldest first. -/
def Model.updates (m : Model) (msgs : List Msg) : Model :=
  msgs.foldl Model.update m

/-- `New` (tree.go): construct the model over a root node and run the first
layout pass.  `height` is the viewport height (modelled from the spec: the
help pane is presentation chrome outside the core, so the full height goes to
the viewport; the width only affects rendering). -/
def Model.New (t : Node) (height : Int) : Model :=
  let root := setAttributes t
  { ScrollOff := 5
    root := root
    viewport := { Height := height, YOffset := 0, totalLines := root.size }
    yOffset := 0 }

/-! ### Derived observers

These definitions are not part of the source; they are the vocabulary in
which the properties are stated: the number of renderer-visible nodes of a
subtree, the pre-order listing of the visible nodes and of their cached
offsets, a structural erasure keeping exactly what the layout passes read
(open state and renderer windows), and integer ranges. -/

mutual
/-- Number of renderer-visible nodes of the subtree (the node itself plus,
recursively, the children inside the renderer window). -/
def visCount : Node → Nat
  | .mk _ _ _ _ os oe _ _ _ cs => 1 + visCountScan cs 0 os (cs.length - oe)

def visCountScan : List Node → Nat → Nat → Nat → Nat
  | [], _, _, _ => 0
  | c :: rest, j, lo, hi =>
    if lo ≤ j ∧ j < hi then visCount c + visCountScan rest (j + 1) lo hi
    else visCountScan rest (j + 1) lo hi
end

mutual
/-- Pre-order listing of the renderer-visible nodes. -/
def visNodes : Node → List Node
  | t@(.mk _ _ _ _ os oe _ _ _ cs) => t :: visNodesScan cs 0 os (cs.length - oe)

def visNodesScan : List Node → Nat → Nat → Nat → List Node
  | [], _, _, _ => []
  | c :: rest, j, lo, hi =>
    if lo ≤ j ∧ j < hi then visNodes c ++ visNodesScan rest (j + 1) lo hi
    else visNodesScan rest (j + 1) lo hi
end

mutual
/-- Pre-order listing of the cached `yOffset`s of the renderer-visible
nodes. -/
def offsList : Node → List Int
  | .mk _ _ _ _ os oe _ yo _ cs => yo :: offsScan cs 0 os (cs.length - oe)

def offsScan : List Node → Nat → Nat → Nat → List Int
  | [], _, _, _ => []
  | c :: rest, j, lo, hi =>
    if lo ≤ j ∧ j < hi then offsList c ++ offsScan rest (j + 1) lo hi
    else offsScan rest (j + 1) lo hi
end

mutual
/-- Structural erasure: keep the open flags, the renderer windows and the
tree shape, zero out everything the layout passes (re)compute.  Two nodes
with the same `scrub` have the same renderer-visible structure. -/
def scrub : Node → Node
  | .mk _ _ o ic os oe _ _ _ cs => .mk 0 false o ic os oe 0 0 0 (scrubL cs)

def scrubL : List Node → List Node
  | [] => []
  | c :: rest => scrub c :: scrubL rest
end

/-- `intRange s n = [s, s+1, ..., s+n-1]`. -/
def intRange (s : Int) : Nat → List Int
  | 0 => []
  | n + 1 => s :: intRange (s + 1) n

/-- The spec's effective size of a child: its own `size` when open, else 1. -/
def effectiveSize (c : Node) : Int := if c.IsOpen then c.size else 1

/-! ### Basic lemmas -/

attribute [simp] Node.value Node.isRoot Node.open_ Node.initialClosed Node.offStart
  Node.offEnd Node.size Node.yOffset Node.depth Node.children Node.withOpen
  Node.withInitialClosed Node.treeOffset Node.withSize Node.withChildren
  Node.IsOpen Node.Size Node.Depth

theorem intRange_succ (s : Int) (n : Nat) : intRange s (n + 1) = s :: intRange (s + 1) n := rfl

theorem intRange_length (s : Int) (n : Nat) : (intRange s n).length = n := by
  induction n generalizing s with
  | zero => simp [intRange]
  | succ k ih => simp [intRange, ih]

theorem intRange_append (s : Int) (a b : Nat) :
    intRange s (a + b) = intRange s a ++ intRange (s + a) b := by
  induction a generalizing s with
  | zero => simp [intRange]
  | succ k ih =>
    have h1 : k + 1 + b = (k + b) + 1 := by omega
    rw [h1]
    show s :: intRange (s + 1) (k + b) = (s :: intRange (s + 1) k) ++ _
    rw [ih (s + 1)]
    simp
    ring_nf

theorem mem_intRange {x s : Int} {n : Nat} : x ∈ intRange s n ↔ s ≤ x ∧ x < s + n := by
  induction n generalizing s with
  | zero => simp [intRange]
  | succ k ih =>
    simp only [intRange, List.mem_cons, ih]
    constructor
    · rintro (rfl | ⟨h1, h2⟩) <;> constructor <;> omega
    · intro ⟨h1, h2⟩
      by_cases hx : x = s
      · exact .inl hx
      · refine .inr ⟨by omega, by omega⟩

theorem chain'_lt_intRange (s : Int) (n : Nat) : List.Chain' (· < ·) (intRange s n) := by
  induction n generalizing s with
  | zero => simp [intRange]
  | succ k ih =>
    cases k with
    | zero => simp [intRange]
    | succ m =>
      rw [intRange, intRange, List.chain'_cons]
      exact ⟨by omega, by rw [← intRange]; exact ih (s + 1)⟩

/-- When the window `[lo, hi)` covers all of `cs` (scanning from `j` with
`lo ≤ j` and `j + cs.length ≤ hi`), the window scan keeps everything. -/
theorem winScan_all (cs : List Node) (j lo hi : Nat)
    (h1 : lo ≤ j) (h2 : j + cs.length ≤ hi) :
    Node.winScan cs j lo hi = cs := by
  induction cs generalizing j with
  | nil => simp [Node.winScan]
  | cons c rest ih =>
    have hc : lo ≤ j ∧ j < hi := by simp at h2; omega
    simp [Node.winScan, hc]
    exact ih (j + 1) (by omega) (by simp at h2 ⊢; omega)

/-- When the window is empty (`hi ≤ lo`), the window scan keeps nothing. -/
theorem winScan_none (cs : List Node) (j lo hi : Nat) (h : hi ≤ lo) :
    Node.winScan cs j lo hi = [] := by
  induction cs generalizing j with
  | nil => simp [Node.winScan]
  | cons c rest ih =>
    have hc : ¬(lo ≤ j ∧ j < hi) := by omega
    simp [Node.winScan, hc]
    exact ih (j + 1)

theorem scrubL_length (l : List Node) : (scrubL l).length = l.length := by
  induction l with
  | nil => simp [scrubL]
  | cons c rest ih => simp [scrubL, ih]

theorem length_eq_of_scrubL_eq {a b : List Node} (h : scrubL a = scrubL b) :
    a.length = b.length := by
  rw [← scrubL_length a, ← scrubL_length b, h]

mutual
theorem scrub_setDepths (t : Node) (d : Int) : scrub (setDepths t d) = scrub t := by
  match t with
  | .mk v ir o ic os oe sz yo dd cs =>
    simp only [setDepths, scrub]
    rw [scrub_setDepthsScan cs 0 os (cs.length - oe) (d + 1)]

theorem scrub_setDepthsScan (cs : List Node) (j lo hi : Nat) (d : Int) :
    scrubL (setDepthsScan cs j lo hi d) = scrubL cs := by
  match cs with
  | [] => simp [setDepthsScan]
  | c :: rest =>
    by_cases h : lo ≤ j ∧ j < hi
    · simp only [setDepthsScan, if_pos h, scrubL]
      rw [scrub_setDepths c d, scrub_setDepthsScan rest (j + 1) lo hi d]
    · simp only [setDepthsScan, if_neg h, scrubL]
      rw [scrub_setDepthsScan rest (j + 1) lo hi d]
end

mutual
theorem scrub_setSizes (t : Node) : scrub (setSizes t).1 = scrub t := by
  match t with
  | .mk v ir o ic os oe sz yo dd cs =>
    simp only [setSizes, scrub]
    rw [scrub_setSizesScan cs 0 os (cs.length - oe)]

theorem scrub_setSizesScan (cs : List Node) (j lo hi : Nat) :
    scrubL (setSizesScan cs j lo hi).1 = scrubL cs := by
  match cs with
  | [] => simp [setSizesScan]
  | c :: rest =>
    by_cases h : lo ≤ j ∧ j < hi
    · simp only [setSizesScan, if_pos h, scrubL]
      rw [scrub_setSizes c, scrub_setSizesScan rest (j + 1) lo hi]
    · simp only [setSizesScan, if_neg h, scrubL]
      rw [scrub_setSizesScan rest (j + 1) lo hi]
end

mutual
theorem scrub_setYOffsetsAt (t : Node) (y : Int) :
    scrub (setYOffsetsAt t y) = scrub t := by
  match t with
  | .mk v ir o ic os oe sz yo dd cs =>
    simp only [setYOffsetsAt, scrub]
    rw [scrub_setYOffsetsScan cs 0 os (cs.length - oe) y 0 0]

theorem scrub_setYOffsetsScan (cs : List Node) (j lo hi : Nat) (ty above i : Int) :
    scrubL (setYOffsetsScan cs j lo hi ty above i) = scrubL cs := by
  match cs with
  | [] => simp [setYOffsetsScan]
  | c :: rest =>
    by_cases h : lo ≤ j ∧ j < hi
    · simp only [setYOffsetsScan, if_pos h, scrubL]
      rw [scrub_setYOffsetsAt c (ty + above + i + 1),
        scrub_setYOffsetsScan rest (j + 1) lo hi ty _ (i + 1)]
    · simp only [setYOffsetsScan, if_neg h, scrubL]
      rw [scrub_setYOffsetsScan rest (j + 1) lo hi ty above i]
end

theorem scrub_setAttributes (t : Node) : scrub (setAttributes t) = scrub t := by
  rw [setAttributes, setYOffsets, scrub_setYOffsetsAt, scrub_setSizes, scrub_setDepths]

mutual
theorem visCount_scrub (t : Node) : visCount (scrub t) = visCount t := by
  match t with
  | .mk v ir o ic os oe sz yo dd cs =>
    simp only [scrub, visCount, scrubL_length]
    rw [visCountScan_scrubL cs 0 os (cs.length - oe)]

theorem visCountScan_scrubL (cs : List Node) (j lo hi : Nat) :
    visCountScan (scrubL cs) j lo hi = visCountScan cs j lo hi := by
  match cs with
  | [] => simp [scrubL, visCountScan]
  | c :: rest =>
    by_cases h : lo ≤ j ∧ j < hi
    · simp only [scrubL, visCountScan, if_pos h]
      rw [visCount_scrub c, visCountScan_scrubL rest (j + 1) lo hi]
    · simp only [scrubL, visCountScan, if_neg h]
      rw [visCountScan_scrubL rest (j + 1) lo hi]
end

theorem visCount_congr {a b : Node} (h : scrub a = scrub b) : visCount a = visCount b := by
  rw [← visCount_scrub a, ← visCount_scrub b, h]

theorem self_mem_visNodes (t : Node) : t ∈ visNodes t := by
  match t with
  | .mk v ir o ic os oe sz yo d cs =>
    rw [visNodes]
    exact List.mem_cons_self _ _

mutual
theorem visNodes_trans (t n m : Node) (h1 : n ∈ visNodes t) (h2 : m ∈ visNodes n) :
    m ∈ visNodes t := by
  match t with
  | .mk v ir o ic os oe sz yo d cs =>
    rw [visNodes] at h1 ⊢
    rcases List.mem_cons.mp h1 with rfl | h1'
    · exact h2
    · exact List.mem_cons_of_mem _ (visNodesScan_trans cs 0 os (cs.length - oe) n m h1' h2)

theorem visNodesScan_trans (cs : List Node) (j lo hi : Nat) (n m : Node)
    (h1 : n ∈ visNodesScan cs j lo hi) (h2 : m ∈ visNodes n) :
    m ∈ visNodesScan cs j lo hi := by
  match cs with
  | [] => simp [visNodesScan] at h1
  | c :: rest =>
    by_cases h : lo ≤ j ∧ j < hi
    · rw [visNodesScan, if_pos h] at h1 ⊢
      rcases List.mem_append.mp h1 with hL | hR
      · exact List.mem_append_left _ (visNodes_trans c n m hL h2)
      · exact List.mem_append_right _ (visNodesScan_trans rest (j + 1) lo hi n m hR h2)
    · rw [visNodesScan, if_neg h] at h1 ⊢
      exact visNodesScan_trans rest (j + 1) lo hi n m h1 h2
end

theorem mem_visNodesScan {n : Node} (cs : List Node) (j lo hi : Nat) :
    n ∈ visNodesScan cs j lo hi ↔ ∃ c ∈ Node.winScan cs j lo hi, n ∈ visNodes c := by
  induction cs generalizing j with
  | nil => simp [visNodesScan, Node.winScan]
  | cons c rest ih =>
    by_cases h : lo ≤ j ∧ j < hi
    · rw [visNodesScan, if_pos h, Node.winScan, if_pos h]
      simp only [List.mem_append, List.mem_cons, ih (j + 1)]
      constructor
      · rintro (hL | ⟨c2, hc2, hn⟩)
        · exact ⟨c, .inl rfl, hL⟩
        · exact ⟨c2, .inr hc2, hn⟩
      · rintro ⟨c2, rfl | hc2, hn⟩
        · exact .inl hn
        · exact .inr ⟨c2, hc2, hn⟩
    · rw [visNodesScan, if_neg h, Node.winScan, if_neg h]
      exact ih (j + 1)

theorem setYOffsetsAt_size (t : Node) (y : Int) : (setYOffsetsAt t y).size = t.size := by
  match t with
  | .mk v ir o ic os oe sz yo d cs => simp [setYOffsetsAt]

theorem setYOffsetsAt_yOffset (t : Node) (y : Int) : (setYOffsetsAt t y).yOffset = y := by
  match t with
  | .mk v ir o ic os oe sz yo d cs => simp [setYOffsetsAt]

theorem setSizes_fst_size (t : Node) : (setSizes t).1.size = (setSizes t).2 := by
  match t with
  | .mk v ir o ic os oe sz yo d cs => simp [setSizes]

mutual
/-- The accumulator bookkeeping of `setSizes`: over one window,
`Σ (size - 1)` plus the window length is the number of visible nodes. -/
theorem setSizes_snd (t : Node) : (setSizes t).2 = (visCount t : Int) := by
  match t with
  | .mk v ir o ic os oe sz yo d cs =>
    have h := setSizesScan_acc cs 0 os (cs.length - oe)
    simp only [setSizes, visCount]
    push_cast
    omega

theorem setSizesScan_acc (cs : List Node) (j lo hi : Nat) :
    (setSizesScan cs j lo hi).2.1 + (setSizesScan cs j lo hi).2.2
      = (visCountScan cs j lo hi : Int) := by
  match cs with
  | [] => simp [setSizesScan, visCountScan]
  | c :: rest =>
    by_cases h : lo ≤ j ∧ j < hi
    · have h1 := setSizes_snd c
      have h2 := setSizesScan_acc rest (j + 1) lo hi
      simp only [setSizesScan, if_pos h, visCountScan]
      push_cast at h2 ⊢
      omega
    · have h2 := setSizesScan_acc rest (j + 1) lo hi
      simp only [setSizesScan, if_neg h, visCountScan]
      push_cast at h2 ⊢
      omega
end

/-- `1 ≤ visCount`. -/
theorem one_le_visCount (t : Node) : 1 ≤ visCount t := by
  match t with
  | .mk v ir o ic os oe sz yo d cs => rw [visCount]; omega

/-- Every renderer-visible node of a tree has a correctly computed cached
size (`size = visCount`). -/
def SizesOKv (t : Node) : Prop := ∀ n ∈ visNodes t, n.size = (visCount n : Int)

mutual
theorem sizesOKv_setSizes (t : Node) : SizesOKv (setSizes t).1 := by
  match t with
  | .mk v ir o ic os oe sz yo d cs =>
    intro n hn
    rw [setSizes] at hn
    simp only at hn
    rw [visNodes] at hn
    rcases List.mem_cons.mp hn with rfl | h1
    · have hs := setSizes_snd (Node.mk v ir o ic os oe sz yo d cs)
      have hv : visCount (setSizes (Node.mk v ir o ic os oe sz yo d cs)).1
          = visCount (Node.mk v ir o ic os oe sz yo d cs) :=
        visCount_congr (scrub_setSizes _)
      rw [setSizes] at hs hv
      simp only at hs hv
      simp only [Node.size]
      rw [hv]
      exact hs
    · have hlen : (setSizesScan cs 0 os (cs.length - oe)).1.length = cs.length :=
        length_eq_of_scrubL_eq (scrub_setSizesScan cs 0 os (cs.length - oe))
      rw [hlen] at h1
      exact sizesOKv_setSizesScan cs 0 os (cs.length - oe) n h1

theorem sizesOKv_setSizesScan (cs : List Node) (j lo hi : Nat) (n : Node)
    (hn : n ∈ visNodesScan (setSizesScan cs j lo hi).1 j lo hi) :
    n.size = (visCount n : Int) := by
  match cs with
  | [] => simp [setSizesScan, visNodesScan] at hn
  | c :: rest =>
    by_cases h : lo ≤ j ∧ j < hi
    · rw [setSizesScan] at hn
      simp only [if_pos h] at hn
      rw [visNodesScan, if_pos h] at hn
      rcases List.mem_append.mp hn with hL | hR
      · exact sizesOKv_setSizes c n hL
      · exact sizesOKv_setSizesScan rest (j + 1) lo hi n hR
    · rw [setSizesScan] at hn
      simp only [if_neg h] at hn
      rw [visNodesScan, if_neg h] at hn
      exact sizesOKv_setSizesScan rest (j + 1) lo hi n hn
end

mutual
theorem visNodes_setYOffsetsAt (t : Node) (y : Int) (n : Node)
    (hn : n ∈ visNodes (setYOffsetsAt t y)) :
    ∃ m y2, m ∈ visNodes t ∧ n = setYOffsetsAt m y2 := by
  match t with
  | .mk v ir o ic os oe sz yo d cs =>
    rw [setYOffsetsAt] at hn
    rw [visNodes] at hn
    rcases List.mem_cons.mp hn with rfl | h1
    · exact ⟨Node.mk v ir o ic os oe sz yo d cs, y, self_mem_visNodes _, by rw [setYOffsetsAt]⟩
    · have hlen : (setYOffsetsScan cs 0 os (cs.length - oe) y 0 0).length = cs.length :=
        length_eq_of_scrubL_eq (scrub_setYOffsetsScan cs 0 os (cs.length - oe) y 0 0)
      rw [hlen] at h1
      obtain ⟨m, y2, hm, rfl⟩ :=
        visNodes_setYOffsetsScan cs 0 os (cs.length - oe) y 0 0 n h1
      exact ⟨m, y2, by rw [visNodes]; exact List.mem_cons_of_mem _ hm, rfl⟩

theorem visNodes_setYOffsetsScan (cs : List Node) (j lo hi : Nat) (ty above i : Int)
    (n : Node) (hn : n ∈ visNodesScan (setYOffsetsScan cs j lo hi ty above i) j lo hi) :
    ∃ m y2, m ∈ visNodesScan cs j lo hi ∧ n = setYOffsetsAt m y2 := by
  match cs with
  | [] => simp [setYOffsetsScan, visNodesScan] at hn
  | c :: rest =>
    by_cases h : lo ≤ j ∧ j < hi
    · rw [setYOffsetsScan] at hn
      simp only [if_pos h] at hn
      rw [visNodesScan, if_pos h] at hn
      rcases List.mem_append.mp hn with hL | hR
      · obtain ⟨m, y2, hm, rfl⟩ := visNodes_setYOffsetsAt c (ty + above + i + 1) n hL
        exact ⟨m, y2, by rw [visNodesScan, if_pos h]; exact List.mem_append_left _ hm, rfl⟩
      · obtain ⟨m, y2, hm, rfl⟩ := visNodes_setYOffsetsScan rest (j + 1) lo hi ty
          (above + ((setYOffsetsAt c (ty + above + i + 1)).size - 1)) (i + 1) n hR
        exact ⟨m, y2, by rw [visNodesScan, if_pos h]; exact List.mem_append_right _ hm, rfl⟩
    · rw [setYOffsetsScan] at hn
      simp only [if_neg h] at hn
      rw [visNodesScan, if_neg h] at hn
      obtain ⟨m, y2, hm, rfl⟩ :=
        visNodes_setYOffsetsScan rest (j + 1) lo hi ty above i n hn
      exact ⟨m, y2, by rw [visNodesScan, if_neg h]; exact hm, rfl⟩
end

theorem sizesOKv_setYOffsetsAt {t : Node} (h : SizesOKv t) (y : Int) :
    SizesOKv (setYOffsetsAt t y) := by
  intro n hn
  obtain ⟨m, y2, hm, rfl⟩ := visNodes_setYOffsetsAt t y n hn
  rw [setYOffsetsAt_size, visCount_congr (scrub_setYOffsetsAt m y2)]
  exact h m hm

theorem sizesOKv_setAttributes (t : Node) : SizesOKv (setAttributes t) := by
  rw [setAttributes, setYOffsets]
  exact sizesOKv_setYOffsetsAt (sizesOKv_setSizes _) _

theorem setAttributes_size (t : Node) : (setAttributes t).size = (visCount t : Int) := by
  rw [setAttributes, setYOffsets, setYOffsetsAt_size, setSizes_fst_size, setSizes_snd,
    visCount_congr (scrub_setDepths t 0)]

theorem sizesOKv_of_mem_visNodes {t n : Node} (h : SizesOKv t) (hn : n ∈ visNodes t) :
    SizesOKv n :=
  fun m hm => h m (visNodes_trans t n m hn hm)

theorem mem_visNodesScan_of_winScan {c : Node} {cs : List Node} {j lo hi : Nat}
    (hc : c ∈ Node.winScan cs j lo hi) : c ∈ visNodesScan cs j lo hi :=
  (mem_visNodesScan cs j lo hi).mpr ⟨c, hc, self_mem_visNodes c⟩

/-- The window children of a node with correctly computed sizes also have
correctly computed sizes. -/
theorem sizesOKv_winScan {v ir o ic os oe sz yo d cs} {c : Node}
    (h : SizesOKv (Node.mk v ir o ic os oe sz yo d cs))
    (hc : c ∈ Node.winScan cs 0 os (cs.length - oe)) : SizesOKv c := by
  refine sizesOKv_of_mem_visNodes h ?_
  rw [visNodes]
  exact List.mem_cons_of_mem _ (mem_visNodesScan_of_winScan hc)

mutual
/-- The offsets assigned by `setYOffsets` to a subtree with correctly
computed sizes are exactly the consecutive integers starting at the
subtree's own assigned offset. -/
theorem offsList_setYOffsetsAt (t : Node) (y : Int) (h : SizesOKv t) :
    offsList (setYOffsetsAt t y) = intRange y (visCount t) := by
  match t with
  | .mk v ir o ic os oe sz yo d cs =>
    rw [setYOffsetsAt, offsList]
    have hlen : (setYOffsetsScan cs 0 os (cs.length - oe) y 0 0).length = cs.length :=
      length_eq_of_scrubL_eq (scrub_setYOffsetsScan cs 0 os (cs.length - oe) y 0 0)
    rw [hlen]
    rw [offsScan_setYOffsetsScan cs 0 os (cs.length - oe) y 0 0
      (fun c hc => sizesOKv_winScan h hc)]
    rw [visCount, Nat.add_comm 1 _, intRange]
    have hy : y + 0 + 0 + 1 = y + 1 := by ring
    rw [hy]

theorem offsScan_setYOffsetsScan (cs : List Node) (j lo hi : Nat) (ty above i : Int)
    (h : ∀ c ∈ Node.winScan cs j lo hi, SizesOKv c) :
    offsScan (setYOffsetsScan cs j lo hi ty above i) j lo hi
      = intRange (ty + above + i + 1) (visCountScan cs j lo hi) := by
  match cs with
  | [] => simp [setYOffsetsScan, offsScan, visCountScan, intRange]
  | c :: rest =>
    by_cases hw : lo ≤ j ∧ j < hi
    · have hc : SizesOKv c := by
        refine h c ?_
        rw [Node.winScan, if_pos hw]
        exact List.mem_cons_self _ _
      have hrest : ∀ c2 ∈ Node.winScan rest (j + 1) lo hi, SizesOKv c2 := by
        intro c2 hc2
        refine h c2 ?_
        rw [Node.winScan, if_pos hw]
        exact List.mem_cons_of_mem _ hc2
      have hcsize : c.size = (visCount c : Int) := hc c (self_mem_visNodes c)
      rw [setYOffsetsScan]
      simp only [if_pos hw]
      rw [offsScan, if_pos hw]
      rw [offsList_setYOffsetsAt c (ty + above + i + 1) hc]
      rw [setYOffsetsAt_size, hcsize]
      rw [offsScan_setYOffsetsScan rest (j + 1) lo hi ty
        (above + ((visCount c : Int) - 1)) (i + 1) hrest]
      rw [visCountScan, if_pos hw]
      rw [intRange_append (ty + above + i + 1) (visCount c) (visCountScan rest (j + 1) lo hi)]
      have harith : ty + (above + ((visCount c : Int) - 1)) + (i + 1) + 1
          = ty + above + i + 1 + (visCount c : Int) := by ring
      rw [harith]
    · have hrest : ∀ c2 ∈ Node.winScan rest (j + 1) lo hi, SizesOKv c2 := by
        intro c2 hc2
        refine h c2 ?_
        rw [Node.winScan, if_neg hw]
        exact hc2
      rw [setYOffsetsScan]
      simp only [if_neg hw]
      rw [offsScan, if_neg hw]
      rw [offsScan_setYOffsetsScan rest (j + 1) lo hi ty above i hrest]
      rw [visCountScan, if_neg hw]
end

/-- After a full layout recomputation the visible pre-order offsets are the
consecutive integers starting at the root's own (never reassigned) offset. -/
theorem offsList_setAttributes (t : Node) :
    offsList (setAttributes t) = intRange t.yOffset (visCount t) := by
  have h1 : (setSizes (setDepths t 0)).1.yOffset = t.yOffset := by
    match t with
    | .mk v ir o ic os oe sz yo d cs => simp [setDepths, setSizes]
  rw [setAttributes, setYOffsets, h1,
    offsList_setYOffsetsAt _ t.yOffset (sizesOKv_setSizes _)]
  rw [visCount_congr (scrub_setSizes (setDepths t 0)), visCount_congr (scrub_setDepths t 0)]

mutual
/-- Soundness of the DFS: a found node carries the searched offset. -/
theorem findNode_some_yOffset (t : Node) (y : Int) (n : Node)
    (h : findNode t y = some n) : n.yOffset = y := by
  match t with
  | .mk v ir o ic os oe sz yo d cs =>
    rw [findNode] at h
    by_cases hyo : yo = y
    · simp only [Node.yOffset, if_pos hyo] at h
      cases h
      simp [hyo]
    · simp only [Node.yOffset, if_neg hyo] at h
      exact findNodeScan_some_yOffset cs 0 os (cs.length - oe) y n h

theorem findNodeScan_some_yOffset (cs : List Node) (j lo hi : Nat) (y : Int) (n : Node)
    (h : findNodeScan cs j lo hi y = some n) : n.yOffset = y := by
  match cs with
  | [] => simp [findNodeScan] at h
  | c :: rest =>
    by_cases hw : lo ≤ j ∧ j < hi
    · rw [findNodeScan, if_pos hw] at h
      cases hfc : findNode c y with
      | some f =>
        rw [hfc] at h
        cases h
        exact findNode_some_yOffset c y _ hfc
      | none =>
        rw [hfc] at h
        exact findNodeScan_some_yOffset rest (j + 1) lo hi y n h
    · rw [findNodeScan, if_neg hw] at h
      exact findNodeScan_some_yOffset rest (j + 1) lo hi y n h
end

mutual
/-- A failed DFS means the offset is not among the visible offsets. -/
theorem findNode_none (t : Node) (y : Int) (h : findNode t y = none) :
    y ∉ offsList t := by
  match t with
  | .mk v ir o ic os oe sz yo d cs =>
    rw [findNode] at h
    by_cases hyo : yo = y
    · simp [Node.yOffset, if_pos hyo] at h
    · simp only [Node.yOffset, if_neg hyo] at h
      rw [offsList]
      intro hmem
      rcases List.mem_cons.mp hmem with heq | h1
      · exact hyo heq.symm
      · exact findNodeScan_none cs 0 os (cs.length - oe) y h h1

theorem findNodeScan_none (cs : List Node) (j lo hi : Nat) (y : Int)
    (h : findNodeScan cs j lo hi y = none) : y ∉ offsScan cs j lo hi := by
  match cs with
  | [] => simp [offsScan]
  | c :: rest =>
    by_cases hw : lo ≤ j ∧ j < hi
    · rw [findNodeScan, if_pos hw] at h
      rw [offsScan, if_pos hw]
      cases hfc : findNode c y with
      | some f => rw [hfc] at h; cases h
      | none =>
        rw [hfc] at h
        intro hmem
        rcases List.mem_append.mp hmem with hL | hR
        · exact findNode_none c y hfc hL
        · exact findNodeScan_none rest (j + 1) lo hi y h hR
    · rw [findNodeScan, if_neg hw] at h
      rw [offsScan, if_neg hw]
      exact findNodeScan_none rest (j + 1) lo hi y h
end

mutual
/-- Completeness of the DFS: every visible offset resolves to a node. -/
theorem findNode_isSome (t : Node) (y : Int) (h : y ∈ offsList t) :
    (findNode t y).isSome := by
  match t with
  | .mk v ir o ic os oe sz yo d cs =>
    rw [findNode]
    by_cases hyo : yo = y
    · simp [Node.yOffset, if_pos hyo]
    · simp only [Node.yOffset, if_neg hyo]
      rw [offsList] at h
      rcases List.mem_cons.mp h with heq | h1
      · exact absurd heq.symm hyo
      · exact findNodeScan_isSome cs 0 os (cs.length - oe) y h1

theorem findNodeScan_isSome (cs : List Node) (j lo hi : Nat) (y : Int)
    (h : y ∈ offsScan cs j lo hi) : (findNodeScan cs j lo hi y).isSome := by
  match cs with
  | [] => simp [offsScan] at h
  | c :: rest =>
    by_cases hw : lo ≤ j ∧ j < hi
    · rw [findNodeScan, if_pos hw]
      rw [offsScan, if_pos hw] at h
      cases hfc : findNode c y with
      | some f => simp
      | none =>
        rcases List.mem_append.mp h with hL | hR
        · exact absurd hL (findNode_none c y hfc)
        · exact findNodeScan_isSome rest (j + 1) lo hi y hR
    · rw [findNodeScan, if_neg hw]
      rw [offsScan, if_neg hw] at h
      exact findNodeScan_isSome rest (j + 1) lo hi y h
end

/-! ### Path update machinery -/

@[simp] theorem children_withChildren (t : Node) (cs : List Node) :
    (t.withChildren cs).children = cs := by
  match t with
  | .mk .. => rfl

@[simp] theorem withChildren_withChildren (t : Node) (cs1 cs2 : List Node) :
    (t.withChildren cs1).withChildren cs2 = t.withChildren cs2 := by
  match t with
  | .mk .. => rfl

@[simp] theorem withChildren_self (t : Node) : t.withChildren t.children = t := by
  match t with
  | .mk .. => rfl

theorem scrub_withChildren (t : Node) (cs : List Node) :
    scrub (t.withChildren cs) = (scrub t).withChildren (scrubL cs) := by
  match t with
  | .mk .. => simp [scrub, Node.withChildren]

theorem children_scrub (t : Node) : (scrub t).children = scrubL t.children := by
  match t with
  | .mk .. => simp [scrub]

theorem scrubL_getElem (l : List Node) (i : Nat) : (scrubL l)[i]? = (l[i]?).map scrub := by
  induction l generalizing i with
  | nil => simp [scrubL]
  | cons c rest ih =>
    cases i with
    | zero => simp [scrubL]
    | succ k => simp [scrubL, ih]

theorem scrubL_set (l : List Node) (i : Nat) (x : Node) :
    scrubL (l.set i x) = (scrubL l).set i (scrub x) := by
  induction l generalizing i with
  | nil => simp [scrubL]
  | cons c rest ih =>
    cases i with
    | zero => simp [scrubL]
    | succ k => simp [scrubL, ih]

theorem set_getElem_self {l : List Node} {i : Nat} {c : Node} (h : l[i]? = some c) :
    l.set i c = l := by
  induction l generalizing i with
  | nil => simp at h
  | cons a rest ih =>
    cases i with
    | zero => simp at h; simp [h]
    | succ k => simp at h; simp [ih h]

theorem getPath_scrub (t : Node) (p : List Nat) :
    getPath (scrub t) p = (getPath t p).map scrub := by
  induction p generalizing t with
  | nil => simp [getPath]
  | cons i rest ih =>
    rw [getPath, getPath, children_scrub, scrubL_getElem]
    cases hci : t.children[i]? with
    | none => simp
    | some c => simp [ih c]

theorem updateAt_comp (t : Node) (p : List Nat) (f g : Node → Node) :
    updateAt (updateAt t p f) p g = updateAt t p (fun n => g (f n)) := by
  induction p generalizing t with
  | nil => simp [updateAt]
  | cons i rest ih =>
    cases hci : t.children[i]? with
    | none => simp only [updateAt, hci]
    | some c =>
      have hlt : i < t.children.length := by
        rw [List.getElem?_eq_some] at hci
        exact hci.1
      simp only [updateAt, hci, children_withChildren, List.getElem?_set_self hlt,
        withChildren_withChildren, List.set_set, ih c]

theorem updateAt_fix {t : Node} {p : List Nat} {f : Node → Node} {n : Node}
    (hget : getPath t p = some n) (hf : f n = n) : updateAt t p f = t := by
  induction p generalizing t with
  | nil =>
    rw [getPath] at hget
    cases hget
    rw [updateAt, hf]
  | cons i rest ih =>
    rw [getPath] at hget
    cases hci : t.children[i]? with
    | none => rw [hci] at hget; cases hget
    | some c =>
      rw [hci] at hget
      have hget2 : getPath c rest = some n := hget
      have hfix : updateAt c rest f = c := ih hget2
      rw [updateAt, hci]
      show t.withChildren (t.children.set i (updateAt c rest f)) = t
      rw [hfix, set_getElem_self hci, withChildren_self]

theorem scrub_updateAt (t : Node) (p : List Nat) (f g : Node → Node)
    (hfg : ∀ n, scrub (f n) = g (scrub n)) :
    scrub (updateAt t p f) = updateAt (scrub t) p g := by
  induction p generalizing t with
  | nil => simp [updateAt, hfg]
  | cons i rest ih =>
    rw [updateAt, updateAt, children_scrub, scrubL_getElem]
    cases hci : t.children[i]? with
    | none => simp
    | some c =>
      simp only [Option.map_some']
      rw [scrub_withChildren, scrubL_set, ih c]

theorem toggleMut_mk (b : Bool) (v : Nat) (ir o ic : Bool) (os oe : Nat)
    (sz yo d : Int) (cs : List Node) :
    toggleMut b (.mk v ir o ic os oe sz yo d cs)
      = if b then Node.mk v ir true ic 0 0 sz yo d cs
        else Node.mk v ir false ic cs.length 0 sz yo d cs := by
  cases b with
  | true => rfl
  | false =>
    rw [toggleMut]
    simp only [Bool.false_eq_true, if_neg, Node.withOpen, Node.treeOffset, Node.visChildren,
      Node.children, Node.offStart, Node.offEnd, ite_false]
    rw [winScan_all cs 0 0 (cs.length - 0) (Nat.le_refl 0) (by omega)]

theorem scrub_toggleMut (b : Bool) (n : Node) :
    scrub (toggleMut b n) = toggleMut b (scrub n) := by
  match n with
  | .mk v ir o ic os oe sz yo d cs =>
    rw [toggleMut_mk, scrub, toggleMut_mk]
    cases b with
    | true => simp [scrub]
    | false => simp [scrub, scrubL_length]

theorem toggleMut_roundtrip {n : Node} (ho : n.open_ = true)
    (hos : n.offStart = 0) (hoe : n.offEnd = 0) :
    toggleMut true (toggleMut false n) = n := by
  match n with
  | .mk v ir o ic os oe sz yo d cs =>
    simp only [Node.open_, Node.offStart, Node.offEnd] at ho hos hoe
    subst ho hos hoe
    simp [toggleMut_mk]

/-! ### Model-level helper lemmas -/

theorem updateViewport_root (m : Model) (mv : Int) : (m.updateViewport mv).root = m.root := by
  simp only [Model.updateViewport]
  split_ifs <;> rfl

theorem updateViewport_yOffset (m : Model) (mv : Int) :
    (m.updateViewport mv).yOffset = max (min (m.root.size - 1) (m.yOffset + mv)) 0 := by
  simp only [Model.updateViewport]
  split_ifs <;> rfl

theorem updateViewport_yOffset_bounds (m : Model) (mv : Int) (hsz : 1 ≤ m.root.size) :
    0 ≤ (m.updateViewport mv).yOffset ∧ (m.updateViewport mv).yOffset ≤ m.root.size - 1 := by
  rw [updateViewport_yOffset]
  omega

theorem toggleNode_root (m : Model) (p : List Nat) (b : Bool) :
    (m.toggleNode p b).root = setAttributes (updateAt m.root p (toggleMut b)) := by
  simp only [Model.toggleNode, updateViewport_root]

/-- The cursor-movement commands. -/
def Msg.isMove : Msg → Bool
  | .Down | .Up | .PageDown | .PageUp | .HalfPageDown | .HalfPageUp
  | .GoToTop | .GoToBottom => true
  | .Toggle | .OpenCmd | .CloseCmd => false

theorem update_move_root {m : Model} {msg : Msg} (h : msg.isMove = true) :
    (m.update msg).root = m.root := by
  cases msg with
  | Down => exact updateViewport_root m 1
  | Up => exact updateViewport_root m (-1)
  | PageDown => exact updateViewport_root m m.viewport.Height
  | PageUp => exact updateViewport_root m (-m.viewport.Height)
  | HalfPageDown => exact updateViewport_root m (Int.tdiv m.viewport.Height 2)
  | HalfPageUp => exact updateViewport_root m (Int.tdiv (-m.viewport.Height) 2)
  | GoToTop => exact updateViewport_root m (-m.yOffset)
  | GoToBottom => exact updateViewport_root m m.root.size
  | Toggle => simp [Msg.isMove] at h
  | OpenCmd => simp [Msg.isMove] at h
  | CloseCmd => simp [Msg.isMove] at h

theorem update_move_yOffset_bounds {m : Model} {msg : Msg} (h : msg.isMove = true)
    (hsz : 1 ≤ m.root.size) :
    0 ≤ (m.update msg).yOffset ∧ (m.update msg).yOffset ≤ m.root.size - 1 := by
  cases msg with
  | Down => exact updateViewport_yOffset_bounds m 1 hsz
  | Up => exact updateViewport_yOffset_bounds m (-1) hsz
  | PageDown => exact updateViewport_yOffset_bounds m m.viewport.Height hsz
  | PageUp => exact updateViewport_yOffset_bounds m (-m.viewport.Height) hsz
  | HalfPageDown => exact updateViewport_yOffset_bounds m (Int.tdiv m.viewport.Height 2) hsz
  | HalfPageUp => exact updateViewport_yOffset_bounds m (Int.tdiv (-m.viewport.Height) 2) hsz
  | GoToTop => exact updateViewport_yOffset_bounds m (-m.yOffset) hsz
  | GoToBottom => exact updateViewport_yOffset_bounds m m.root.size hsz
  | Toggle => simp [Msg.isMove] at h
  | OpenCmd => simp [Msg.isMove] at h
  | CloseCmd => simp [Msg.isMove] at h

theorem updates_move_invariant (msgs : List Msg) : ∀ (m : Model),
    (∀ msg ∈ msgs, msg.isMove = true) → 1 ≤ m.root.size →
    0 ≤ m.yOffset → m.yOffset ≤ m.root.size - 1 →
    (m.updates msgs).root = m.root
    ∧ 0 ≤ (m.updates msgs).yOffset ∧ (m.updates msgs).yOffset ≤ m.root.size - 1 := by
  induction msgs with
  | nil =>
    intro m _ _ h0 h1
    exact ⟨rfl, h0, h1⟩
  | cons msg rest ih =>
    intro m hall hsz h0 h1
    have hmv : msg.isMove = true := hall msg (List.mem_cons_self _ _)
    have hroot : (m.update msg).root = m.root := update_move_root hmv
    have hb := update_move_yOffset_bounds hmv hsz
    have hrec := ih (m.update msg) (fun x hx => hall x (List.mem_cons_of_mem _ hx))
      (by rw [hroot]; exact hsz) hb.1 (by rw [hroot]; exact hb.2)
    refine ⟨?_, ?_, ?_⟩
    · show ((m.update msg).updates rest).root = m.root
      rw [hrec.1, hroot]
    · exact hrec.2.1
    · show ((m.update msg).updates rest).yOffset ≤ m.root.size - 1
      have := hrec.2.2
      rw [hroot] at this
      exact this

theorem Close_size (t : Node) : t.Close.size = t.size := by
  match t with
  | .mk .. => rfl

/-! ### Concrete scenario trees (spec §8)

Scenario A: root R (value 0) with children A (value 1, one child A1 value 11)
and B (raw payload 2, wrapped as a closed-by-default leaf). -/

def scenarioA : Node := (Root 0).Child [.inl ((Root 1).Child [.inr 11]), .inr 2]

def scenarioAModel : Model := Model.New scenarioA 10

def scenarioBModel : Model := (scenarioAModel.update .Down).update .Toggle

mutual
theorem findPath_none (t : Node) (y : Int) (h : findNode t y = none) :
    findPath t y = none := by
  match t with
  | .mk v ir o ic os oe sz yo d cs =>
    rw [findNode] at h
    by_cases hyo : yo = y
    · rw [if_pos hyo] at h
      cases h
    · rw [if_neg hyo] at h
      rw [findPath, if_neg hyo]
      exact findPathScan_none cs 0 os (cs.length - oe) y h

theorem findPathScan_none (cs : List Node) (j lo hi : Nat) (y : Int)
    (h : findNodeScan cs j lo hi y = none) : findPathScan cs j lo hi y = none := by
  match cs with
  | [] => rw [findPathScan]
  | c :: rest =>
    by_cases hw : lo ≤ j ∧ j < hi
    · rw [findNodeScan, if_pos hw] at h
      rw [findPathScan, if_pos hw]
      cases hfc : findNode c y with
      | some f => rw [hfc] at h; cases h
      | none =>
        rw [hfc] at h
        rw [findPath_none c y hfc]
        exact findPathScan_none rest (j + 1) lo hi y h
    · rw [findNodeScan, if_neg hw] at h
      rw [findPathScan, if_neg hw]
      exact findPathScan_none rest (j + 1) lo hi y h
end

/-! ### The claims -/

/-- **C10**: `Node.Close()` modifies only the node's `open` flag, its
`initialClosed` flag and the renderer child-offset window, leaving the cached
`size` (and every other field) unchanged; `Node.Child()` always adds the new
child's cached size to the parent's cached size, also when the parent is
closed; consequently, between construction-time `Close()`/`Child()` calls and
the next full layout recomputation a closed node's `Size()` can exceed 1
(witnessed by `Root(5).Child(50).Close()`, which is closed with `Size = 2`). -/
theorem close_child_frame_facts :
    (∀ t : Node, t.Close.size = t.size ∧ t.Close.yOffset = t.yOffset
      ∧ t.Close.depth = t.depth ∧ t.Close.value = t.value ∧ t.Close.isRoot = t.isRoot
      ∧ t.Close.children = t.children
      ∧ t.Close.open_ = false ∧ t.Close.initialClosed = true)
    ∧ (∀ (t c : Node), (t.Child1 (.inl c)).size = t.size + c.size)
    ∧ (∀ (t : Node) (v : Nat), (t.Child1 (.inr v)).size = t.size + 1)
    ∧ (((Root 5).Child [.inr 50]).Close.IsOpen = false
        ∧ ((Root 5).Child [.inr 50]).Close.Size = 2) := by
  refine ⟨?_, ?_, ?_, by decide⟩
  · intro t
    match t with
    | .mk .. => exact ⟨rfl, rfl, rfl, rfl, rfl, rfl, rfl, rfl⟩
  · intro t c
    rw [Node.Child1]
    split_ifs with h
    · rw [Close_size]
      match t with
      | .mk .. => rfl
    · match t with
      | .mk .. => rfl
  · intro t v
    rw [Node.Child1]
    split_ifs with h
    · rw [Close_size]
      match t with
      | .mk .. => rfl
    · match t with
      | .mk .. => rfl

/-- **C5**: in Scenario A (root R open with children A and B, A open with a
single child A1, B a closed-by-default leaf) the recomputed layout gives
`size(R) = 4` and offsets R=0, A=1, A1=2, B=3; toggling A closed (cursor on
A's line, `Toggle`) and recomputing yields `size(A) = 1`, `size(R) = 3`,
offsets R=0, A=1, B=2, and A1 is hidden: the visible nodes are exactly
R, A, B, and every reachable cursor offset (0, 1, 2) resolves to one of
them, never to A1. -/
theorem scenarioB_toggle_facts :
    scenarioAModel.root.size = 4
    ∧ (visNodes scenarioAModel.root).map (fun n => (n.value, n.yOffset))
        = [(0, 0), (1, 1), (11, 2), (2, 3)]
    ∧ scenarioBModel.root.size = 3
    ∧ (getPath scenarioBModel.root [0]).map Node.Size = some 1
    ∧ (getPath scenarioBModel.root [0]).map Node.IsOpen = some false
    ∧ (visNodes scenarioBModel.root).map (fun n => (n.value, n.yOffset))
        = [(0, 0), (1, 1), (2, 2)]
    ∧ (findNode scenarioBModel.root 0).map Node.value = some 0
    ∧ (findNode scenarioBModel.root 1).map Node.value = some 1
    ∧ (findNode scenarioBModel.root 2).map Node.value = some 2 := by
  refine ⟨by decide, by decide, by decide, by decide, by decide, by decide,
    by decide, by decide, by decide⟩

/-- **C2**: for every model and every sequence of movement commands (with any
viewport height), the cursor offset stays inside `[0, root.size - 1]` —
movement clamps, never wraps or errors; and in Scenario A's state with the
cursor at offset 2, `PageDown` with viewport height 10 leaves the cursor at
`size(R) - 1 = 3`. -/
theorem cursor_clamp_invariant :
    (∀ (m : Model) (msgs : List Msg), (∀ msg ∈ msgs, msg.isMove = true) →
      1 ≤ m.root.size → 0 ≤ m.yOffset → m.yOffset ≤ m.root.size - 1 →
      0 ≤ (m.updates msgs).yOffset
        ∧ (m.updates msgs).yOffset ≤ (m.updates msgs).root.size - 1)
    ∧ ((scenarioAModel.update .Down).update .Down).yOffset = 2
    ∧ (((scenarioAModel.update .Down).update .Down).update .PageDown).yOffset = 3
    ∧ scenarioAModel.root.size - 1 = 3
    ∧ scenarioAModel.viewport.Height = 10 := by
  refine ⟨?_, by decide, by decide, by decide, by decide⟩
  intro m msgs hall hsz h0 h1
  have h := updates_move_invariant msgs m hall hsz h0 h1
  rw [h.1]
  exact ⟨h.2.1, h.2.2⟩

/-- Witness for C2: the bound instantiated at Scenario A's model with a
concrete movement sequence that pushes past both ends. -/
theorem cursor_clamp_invariant_witness :
    0 ≤ (scenarioAModel.updates [.PageDown, .PageDown, .Up, .GoToTop, .Down]).yOffset
    ∧ (scenarioAModel.updates [.PageDown, .PageDown, .Up, .GoToTop, .Down]).yOffset
      ≤ (scenarioAModel.updates [.PageDown, .PageDown, .Up, .GoToTop, .Down]).root.size - 1 :=
  cursor_clamp_invariant.1 scenarioAModel [.PageDown, .PageDown, .Up, .GoToTop, .Down]
    (by decide) (by decide) (by decide) (by decide)

/-- **C7**: when the cursor offset resolves to no node (the DFS `findNode`
returns nil), the `Toggle`, `Open` and `Close` commands are silent no-ops:
the model — tree, open flags, cached sizes and offsets, cursor — is returned
unchanged, and no error reaches the host. -/
theorem unresolvable_offset_noop (m : Model)
    (h : findNode m.root m.yOffset = none) :
    m.update .Toggle = m ∧ m.update .OpenCmd = m ∧ m.update .CloseCmd = m := by
  have hp : findPath m.root m.yOffset = none := findPath_none _ _ h
  refine ⟨?_, ?_, ?_⟩ <;> simp only [Model.update, hp]

/-- A model whose cursor offset 5 matches no node of its single-node tree. -/
def strandedCursorModel : Model :=
  { ScrollOff := 5
    root := Root 0
    viewport := { Height := 10, YOffset := 0, totalLines := 1 }
    yOffset := 5 }

/-- Witness for C7: the no-op conclusion at `strandedCursorModel`. -/
theorem unresolvable_offset_noop_witness :
    strandedCursorModel.update .Toggle = strandedCursorModel
    ∧ strandedCursorModel.update .OpenCmd = strandedCursorModel
    ∧ strandedCursorModel.update .CloseCmd = strandedCursorModel :=
  unresolvable_offset_noop _ rfl

theorem tdiv_two_eq_ediv {h : Int} (hh : 0 ≤ h) : Int.tdiv h 2 = h / 2 := by
  match h, hh with
  | Int.ofNat n, _ =>
    unfold Int.tdiv
    simp [Int.ofNat_tdiv]

/-- **C4**: after a cursor movement with nonzero delta, the window is
synchronized exactly as specified: with cursor `c` (the clamped new offset),
effective margin `m = min(scrollOff, height/2)`, `minTop = max(c - m, 0)` and
`minBottom = min(totalVisibleLines - 1, c + m)` (the content's total line
count being `root.size`), the window top moves up to `minTop` when it exceeds
`minTop`, else down to `minBottom - height + 1` when its bottom misses
`minBottom + 1`, else stays; the margin cap keeps `2·m ≤ height` on any
nonnegative-height viewport (no inverted margin), and the operation is a
total function — no failure mode. -/
theorem viewport_follow_contract (m : Model) (movement : Int) (hmv : movement ≠ 0) :
    (m.updateViewport movement).yOffset
      = max (min (m.root.size - 1) (m.yOffset + movement)) 0
    ∧ ((m.updateViewport movement).viewport.YOffset =
        (let c := max (min (m.root.size - 1) (m.yOffset + movement)) 0
         let so := min m.ScrollOff (Int.tdiv m.viewport.Height 2)
         let minTop := max (c - so) 0
         let minBottom := min (m.root.size - 1) (c + so)
         if m.viewport.YOffset > minTop then minTop
         else if m.viewport.YOffset + m.viewport.Height < minBottom + 1 then
           minBottom - m.viewport.Height + 1
         else m.viewport.YOffset))
    ∧ (0 ≤ m.viewport.Height →
        2 * min m.ScrollOff (Int.tdiv m.viewport.Height 2) ≤ m.viewport.Height) := by
  refine ⟨updateViewport_yOffset m movement, ?_, ?_⟩
  · simp only [Model.updateViewport, if_neg hmv]
    split_ifs <;> rfl
  · intro hh
    rw [tdiv_two_eq_ediv hh]
    omega

/-- Witness for C4: the contract evaluated at `strandedCursorModel` with
movement 1. -/
theorem viewport_follow_contract_witness :
    (strandedCursorModel.updateViewport 1).yOffset
      = max (min (strandedCursorModel.root.size - 1)
          (strandedCursorModel.yOffset + 1)) 0
    ∧ ((strandedCursorModel.updateViewport 1).viewport.YOffset =
        (let c := max (min (strandedCursorModel.root.size - 1)
            (strandedCursorModel.yOffset + 1)) 0
         let so := min strandedCursorModel.ScrollOff
            (Int.tdiv strandedCursorModel.viewport.Height 2)
         let minTop := max (c - so) 0
         let minBottom := min (strandedCursorModel.root.size - 1) (c + so)
         if strandedCursorModel.viewport.YOffset > minTop then minTop
         else if strandedCursorModel.viewport.YOffset + strandedCursorModel.viewport.Height
             < minBottom + 1 then
           minBottom - strandedCursorModel.viewport.Height + 1
         else strandedCursorModel.viewport.YOffset))
    ∧ (0 ≤ strandedCursorModel.viewport.Height →
        2 * min strandedCursorModel.ScrollOff
            (Int.tdiv strandedCursorModel.viewport.Height 2)
          ≤ strandedCursorModel.viewport.Height) :=
  viewport_follow_contract strandedCursorModel 1 (by decide)

theorem setAttributes_yOffset (t : Node) : (setAttributes t).yOffset = t.yOffset := by
  have h1 : (setSizes (setDepths t 0)).1.yOffset = t.yOffset := by
    match t with
    | .mk v ir o ic os oe sz yo d cs => simp [setDepths, setSizes]
  rw [setAttributes, setYOffsets, setYOffsetsAt_yOffset, h1]

/-- **C9**: immediately after any layout recomputation over a tree whose root
offset is 0 (`New` starts the root at 0 and nothing ever writes it), the
visible pre-order offsets are exactly the consecutive integers
`0 .. root.size - 1`, the root sitting at 0, and for every in-range offset
the DFS `findNode` returns a visible node carrying exactly that cached
offset — an unresolvable in-range cursor offset cannot occur right after
recomputation. -/
theorem offsets_complete_after_recompute (t : Node) (h0 : t.yOffset = 0) :
    offsList (setAttributes t) = intRange 0 (visCount t)
    ∧ (setAttributes t).size = (visCount t : Int)
    ∧ (setAttributes t).yOffset = 0
    ∧ (∀ k : Int, 0 ≤ k → k < (setAttributes t).size →
        ∃ n, findNode (setAttributes t) k = some n ∧ n.yOffset = k) := by
  refine ⟨by rw [offsList_setAttributes, h0], setAttributes_size t,
    by rw [setAttributes_yOffset, h0], ?_⟩
  intro k hk0 hk1
  rw [setAttributes_size t] at hk1
  have hmem : k ∈ offsList (setAttributes t) := by
    rw [offsList_setAttributes, h0, mem_intRange]
    omega
  have hsome := findNode_isSome _ k hmem
  cases hf : findNode (setAttributes t) k with
  | none => rw [hf] at hsome; cases hsome
  | some n => exact ⟨n, rfl, findNode_some_yOffset _ k n hf⟩

/-- Witness for C9: the consecutive-offsets conclusion and the resolution of
the in-range offset 2 at Scenario A's tree. -/
theorem offsets_complete_after_recompute_witness :
    offsList (setAttributes scenarioA) = intRange 0 (visCount scenarioA)
    ∧ (∃ n, findNode (setAttributes scenarioA) 2 = some n ∧ n.yOffset = 2) :=
  ⟨(offsets_complete_after_recompute scenarioA rfl).1,
   (offsets_complete_after_recompute scenarioA rfl).2.2.2 2 (by decide) (by decide)⟩

/-! ### Offset monotonicity (C8) -/

mutual
theorem offsList_eq_map (t : Node) : offsList t = (visNodes t).map Node.yOffset := by
  match t with
  | .mk v ir o ic os oe sz yo d cs =>
    rw [offsList, visNodes, List.map_cons,
      offsScan_eq_map cs 0 os (cs.length - oe)]
    rfl

theorem offsScan_eq_map (cs : List Node) (j lo hi : Nat) :
    offsScan cs j lo hi = (visNodesScan cs j lo hi).map Node.yOffset := by
  match cs with
  | [] => rw [offsScan, visNodesScan]; rfl
  | c :: rest =>
    by_cases hw : lo ≤ j ∧ j < hi
    · rw [offsScan, if_pos hw, visNodesScan, if_pos hw, List.map_append,
        offsList_eq_map c, offsScan_eq_map rest (j + 1) lo hi]
    · rw [offsScan, if_neg hw, visNodesScan, if_neg hw,
        offsScan_eq_map rest (j + 1) lo hi]
end

theorem offsScan_eq_flatten (cs : List Node) (j lo hi : Nat) :
    offsScan cs j lo hi = ((Node.winScan cs j lo hi).map offsList).flatten := by
  induction cs generalizing j with
  | nil => rw [offsScan, Node.winScan]; rfl
  | cons c rest ih =>
    by_cases hw : lo ≤ j ∧ j < hi
    · rw [offsScan, if_pos hw, Node.winScan, if_pos hw, List.map_cons,
        List.flatten_cons, ih (j + 1)]
    · rw [offsScan, if_neg hw, Node.winScan, if_neg hw, ih (j + 1)]

/-- Every visible node of a freshly recomputed tree heads a consecutive
block of offsets covering exactly its visible subtree. -/
theorem offsList_mem_setAttributes (t : Node) :
    ∀ n ∈ visNodes (setAttributes t), offsList n = intRange n.yOffset (visCount n) := by
  intro n hn
  rw [setAttributes, setYOffsets] at hn
  obtain ⟨m2, y2, hm, rfl⟩ := visNodes_setYOffsetsAt _ _ n hn
  have hOK : SizesOKv m2 := sizesOKv_of_mem_visNodes (sizesOKv_setSizes _) hm
  rw [offsList_setYOffsetsAt m2 y2 hOK, setYOffsetsAt_yOffset,
    visCount_congr (scrub_setYOffsetsAt m2 y2)]

theorem offsList_cons (n : Node) : ∃ tl, offsList n = n.yOffset :: tl := by
  match n with
  | .mk v ir o ic os oe sz yo d cs => exact ⟨_, rfl⟩

theorem intRange_eq_cons {s : Int} {K : Nat} {x : Int} {xs : List Int}
    (h : intRange s K = x :: xs) : x = s := by
  cases K with
  | zero => rw [intRange] at h; cases h
  | succ k => rw [intRange] at h; cases h; rfl

/-- In a list of nodes whose individual offset blocks are consecutive ranges
and whose concatenated blocks form one consecutive range, the nodes' own
offsets strictly increase. -/
theorem chain'_of_blocks (l : List Node) : ∀ (s : Int) (K : Nat),
    (∀ c ∈ l, offsList c = intRange c.yOffset (visCount c)) →
    (l.map offsList).flatten = intRange s K →
    List.Chain' (fun a b => a.yOffset < b.yOffset) l := by
  induction l with
  | nil => intro s K _ _; simp
  | cons c rest ih =>
    intro s K hall heq
    have hc := hall c (List.mem_cons_self _ _)
    rw [List.map_cons, List.flatten_cons] at heq
    have hvc : 1 ≤ visCount c := one_le_visCount c
    have hlen : visCount c + ((rest.map offsList).flatten).length = K := by
      have h2 := congrArg List.length heq
      rw [List.length_append, hc, intRange_length, intRange_length] at h2
      exact h2
    have hsplit : intRange s K
        = intRange s (visCount c) ++ intRange (s + (visCount c : Int)) (K - visCount c) := by
      rw [← intRange_append]
      congr 1
      omega
    rw [hsplit] at heq
    have hinj := List.append_inj heq (by rw [hc, intRange_length, intRange_length])
    have hcy : c.yOffset = s := by
      obtain ⟨tl, htl⟩ := offsList_cons c
      have h1 : intRange s (visCount c) = c.yOffset :: tl := by rw [← hinj.1, htl]
      exact intRange_eq_cons h1
    have hrest := ih (s + (visCount c : Int)) (K - visCount c)
      (fun x hx => hall x (List.mem_cons_of_mem _ hx)) hinj.2
    cases rest with
    | nil => simp
    | cons c2 rest2 =>
      rw [List.chain'_cons]
      refine ⟨?_, hrest⟩
      have hc2y : c2.yOffset = s + (visCount c : Int) := by
        have h2 := hinj.2
        rw [List.map_cons, List.flatten_cons] at h2
        obtain ⟨tl, htl⟩ := offsList_cons c2
        rw [htl, List.cons_append] at h2
        exact intRange_eq_cons h2.symm
      rw [hcy, hc2y]
      omega

/-- **C8**: after every layout recomputation the cached offsets of the
visible nodes strictly increase along pre-order traversal; in particular
every visible node's offset is below all offsets in its visible subtree
below it, and below the offset of its next visible sibling. -/
theorem offset_monotonicity (t : Node) :
    List.Chain' (· < ·) (offsList (setAttributes t))
    ∧ (∀ n ∈ visNodes (setAttributes t), ∀ z ∈ (offsList n).tail, n.yOffset < z)
    ∧ (∀ n ∈ visNodes (setAttributes t),
        List.Chain' (· < ·) (n.visChildren.map Node.yOffset)) := by
  refine ⟨?_, ?_, ?_⟩
  · rw [offsList_setAttributes]
    exact chain'_lt_intRange _ _
  · intro n hn z hz
    have hrange := offsList_mem_setAttributes t n hn
    have hvc : 1 ≤ visCount n := one_le_visCount n
    have htail : (offsList n).tail = intRange (n.yOffset + 1) (visCount n - 1) := by
      rw [hrange]
      cases hk : visCount n with
      | zero => omega
      | succ k => rw [intRange]; rfl
    rw [htail, mem_intRange] at hz
    omega
  · intro n hn
    rw [List.chain'_map]
    have hrange := offsList_mem_setAttributes t n hn
    match n, hn, hrange with
    | .mk v ir o ic os oe sz yo d cs, hn, hrange =>
      have hall : ∀ c ∈ (Node.mk v ir o ic os oe sz yo d cs).visChildren,
          offsList c = intRange c.yOffset (visCount c) := by
        intro c hc
        refine offsList_mem_setAttributes t c (visNodes_trans _ _ c hn ?_)
        rw [visNodes]
        exact List.mem_cons_of_mem _ (mem_visNodesScan_of_winScan hc)
      refine chain'_of_blocks _ (yo + 1) (visCount (Node.mk v ir o ic os oe sz yo d cs) - 1)
        hall ?_
      have hflat : offsScan cs 0 os (cs.length - oe)
          = (((Node.mk v ir o ic os oe sz yo d cs).visChildren).map offsList).flatten := by
        rw [Node.visChildren]
        exact offsScan_eq_flatten cs 0 os (cs.length - oe)
      rw [← hflat]
      rw [offsList] at hrange
      have hvc : 1 ≤ visCount (Node.mk v ir o ic os oe sz yo d cs) :=
        one_le_visCount _
      cases hk : visCount (Node.mk v ir o ic os oe sz yo d cs) with
      | zero => omega
      | succ k =>
        simp only [Node.yOffset] at hrange
        rw [hk, intRange_succ] at hrange
        injection hrange with h1 h2

/-- Witness for C8: the monotonicity conclusions at Scenario A's recomputed
tree, instantiated at its root (whose subtree offsets are 1, 2, 3) and a
concrete descendant offset. -/
theorem offset_monotonicity_witness :
    List.Chain' (· < ·) (offsList (setAttributes scenarioA))
    ∧ ((setAttributes scenarioA).yOffset < 3)
    ∧ List.Chain' (· < ·) ((setAttributes scenarioA).visChildren.map Node.yOffset) :=
  ⟨(offset_monotonicity scenarioA).1,
   (offset_monotonicity scenarioA).2.1 (setAttributes scenarioA)
     (self_mem_visNodes _) 3 (by decide),
   (offset_monotonicity scenarioA).2.2 (setAttributes scenarioA)
     (self_mem_visNodes _)⟩

/-! ### Renderer-window coherence (for C1) -/

mutual
/-- Window coherence of the reachable trees: an open node's renderer window
shows all its children (`Offset(0,0)`), a closed node's renderer window hides
all its children; checked over all nodes, hidden ones included. -/
def coherent : Node → Bool
  | .mk _ _ o _ os oe _ _ _ cs =>
    (if o then os == 0 && oe == 0
     else (Node.winScan cs 0 os (cs.length - oe)).isEmpty)
    && coherentL cs

def coherentL : List Node → Bool
  | [] => true
  | c :: rest => coherent c && coherentL rest
end

theorem coherent_mk {v : Nat} {ir o ic : Bool} {os oe : Nat} {sz yo d : Int}
    {cs : List Node} (h : coherent (Node.mk v ir o ic os oe sz yo d cs) = true) :
    (o = true → os = 0 ∧ oe = 0)
    ∧ (o = false → Node.winScan cs 0 os (cs.length - oe) = [])
    ∧ coherentL cs = true := by
  rw [coherent, Bool.and_eq_true] at h
  refine ⟨?_, ?_, h.2⟩
  · intro ho
    subst ho
    have h1 := h.1
    simp only [if_true] at h1
    simp at h1
    exact h1
  · intro ho
    subst ho
    have h1 := h.1
    simp only [Bool.false_eq_true, if_false] at h1
    simpa using h1

theorem coherentL_mem {c : Node} {cs : List Node} (hm : c ∈ cs)
    (h : coherentL cs = true) : coherent c = true := by
  induction cs with
  | nil => cases hm
  | cons a rest ih =>
    rw [coherentL, Bool.and_eq_true] at h
    rcases List.mem_cons.mp hm with rfl | hm2
    · exact h.1
    · exact ih hm2 h.2

theorem winScan_scrubL (cs : List Node) (j lo hi : Nat) :
    Node.winScan (scrubL cs) j lo hi = scrubL (Node.winScan cs j lo hi) := by
  induction cs generalizing j with
  | nil => simp [scrubL, Node.winScan]
  | cons c rest ih =>
    by_cases hw : lo ≤ j ∧ j < hi
    · rw [scrubL, Node.winScan, if_pos hw, Node.winScan, if_pos hw, scrubL, ih (j + 1)]
    · rw [scrubL, Node.winScan, if_neg hw, Node.winScan, if_neg hw, ih (j + 1)]

mutual
theorem coherent_scrub (t : Node) : coherent (scrub t) = coherent t := by
  match t with
  | .mk v ir o ic os oe sz yo d cs =>
    rw [scrub, coherent, coherent, scrubL_length, winScan_scrubL,
      coherentL_scrubL cs]
    cases o with
    | true => rfl
    | false =>
      cases Node.winScan cs 0 os (cs.length - oe) with
      | nil => rfl
      | cons a rest => rfl

theorem coherentL_scrubL (cs : List Node) : coherentL (scrubL cs) = coherentL cs := by
  match cs with
  | [] => rfl
  | c :: rest =>
    rw [scrubL, coherentL, coherentL, coherent_scrub c, coherentL_scrubL rest]
end

theorem coherent_congr {a b : Node} (h : scrub a = scrub b) : coherent a = coherent b := by
  rw [← coherent_scrub a, ← coherent_scrub b, h]

mutual
theorem coherent_of_mem_visNodes (t n : Node) (hc : coherent t = true)
    (hn : n ∈ visNodes t) : coherent n = true := by
  match t with
  | .mk v ir o ic os oe sz yo d cs =>
    rw [visNodes] at hn
    rcases List.mem_cons.mp hn with rfl | h1
    · exact hc
    · exact coherentL_of_mem_visNodesScan cs 0 os (cs.length - oe) n
        (coherent_mk hc).2.2 h1

theorem coherentL_of_mem_visNodesScan (cs : List Node) (j lo hi : Nat) (n : Node)
    (hl : coherentL cs = true) (hn : n ∈ visNodesScan cs j lo hi) :
    coherent n = true := by
  match cs with
  | [] => simp [visNodesScan] at hn
  | c :: rest =>
    rw [coherentL, Bool.and_eq_true] at hl
    by_cases hw : lo ≤ j ∧ j < hi
    · rw [visNodesScan, if_pos hw] at hn
      rcases List.mem_append.mp hn with hL | hR
      · exact coherent_of_mem_visNodes c n hl.1 hL
      · exact coherentL_of_mem_visNodesScan rest (j + 1) lo hi n hl.2 hR
    · rw [visNodesScan, if_neg hw] at hn
      exact coherentL_of_mem_visNodesScan rest (j + 1) lo hi n hl.2 hn
end

theorem visCountScan_eq_sum (cs : List Node) (j lo hi : Nat) :
    visCountScan cs j lo hi = ((Node.winScan cs j lo hi).map visCount).sum := by
  induction cs generalizing j with
  | nil => rw [visCountScan, Node.winScan]; rfl
  | cons c rest ih =>
    by_cases hw : lo ≤ j ∧ j < hi
    · rw [visCountScan, if_pos hw, Node.winScan, if_pos hw, List.map_cons,
        List.sum_cons, ih (j + 1)]
    · rw [visCountScan, if_neg hw, Node.winScan, if_neg hw, ih (j + 1)]

theorem visCount_of_empty_window {v : Nat} {ir o ic : Bool} {os oe : Nat}
    {sz yo d : Int} {cs : List Node}
    (h : Node.winScan cs 0 os (cs.length - oe) = []) :
    visCount (Node.mk v ir o ic os oe sz yo d cs) = 1 := by
  rw [visCount, visCountScan_eq_sum, h]
  rfl

/-- The visible count of a window-coherent node: 1 when closed. -/
theorem visCount_coherent_closed {n : Node} (hc : coherent n = true)
    (ho : n.open_ = false) : visCount n = 1 := by
  match n with
  | .mk v ir o ic os oe sz yo d cs =>
    simp only [Node.open_] at ho
    subst ho
    exact visCount_of_empty_window ((coherent_mk hc).2.1 rfl)

/-- A tree built through the public construction API whose closed node E
(`Root 5 .Child 50 .Close`, cached size 2) ends up hidden behind another
closed node F, so that the construction-time layout recomputation never
rewrites E's stale size. -/
def staleClosedTree : Node :=
  (Root 7).Child [.inl (((Root 6).Child
    [.inl (((Root 5).Child [.inr 50]).Close)]).Close)]

/-- Counterexample to **C1** as stated: after the layout recomputation run at
model construction, the tree of `staleClosedTree`'s model contains (at path
[0,0]) a node that is closed yet has cached size 2, violating
`size == 1 whenever the node is closed` "for all tree shapes". -/
theorem size_invariant_counterexample :
    (getPath (Model.New staleClosedTree 10).root [0, 0]).map
        (fun n => (n.IsOpen, n.Size))
      = some (false, 2) := by decide

/-- **C1** (amended): after a layout recomputation over a window-coherent
tree, every *renderer-visible* node satisfies the size invariant: `size ≥ 1`;
`size = 1` whenever the node is closed; and for an open node
`size = 1 + Σ effectiveSize(children)`.  (Nodes hidden behind a closed
ancestor are skipped by the recomputation and may keep a stale size, see the
counterexample.) -/
theorem size_invariant_visible_nodes (t : Node) (hc : coherent t = true) :
    ∀ n ∈ visNodes (setAttributes t),
      1 ≤ n.size
      ∧ (n.IsOpen = false → n.size = 1)
      ∧ (n.IsOpen = true → n.size = 1 + (n.children.map effectiveSize).sum) := by
  intro n hn
  have hsz : n.size = (visCount n : Int) := sizesOKv_setAttributes t n hn
  have hcoh : coherent (setAttributes t) = true := by
    rw [coherent_congr (scrub_setAttributes t)]
    exact hc
  have hcn : coherent n = true := coherent_of_mem_visNodes _ n hcoh hn
  refine ⟨?_, ?_, ?_⟩
  · rw [hsz]
    have := one_le_visCount n
    omega
  · intro ho
    rw [hsz, visCount_coherent_closed hcn ho]
    rfl
  · intro ho
    match n, hn, hsz, hcn, ho with
    | .mk v ir o ic os oe sz yo d cs, hn, hsz, hcn, ho =>
      simp only [Node.IsOpen, Node.open_] at ho
      subst ho
      obtain ⟨hos, hoe⟩ := (coherent_mk hcn).1 rfl
      subst hos hoe
      have hwin : Node.winScan cs 0 0 (cs.length - 0) = cs :=
        winScan_all cs 0 0 (cs.length - 0) (Nat.le_refl 0) (by omega)
      have hvc : visCount (Node.mk v ir true ic 0 0 sz yo d cs)
          = 1 + (cs.map visCount).sum := by
        rw [visCount, visCountScan_eq_sum, hwin]
      rw [hsz]
      simp only [Node.size, Node.children]
      rw [hvc]
      push_cast [Nat.cast_list_sum]
      rw [List.map_map]
      have hmap : cs.map (Nat.cast ∘ visCount) = cs.map (effectiveSize) := by
        refine List.map_congr_left ?_
        intro c hcmem
        have hcvis : c ∈ visNodes (setAttributes t) := by
          refine visNodes_trans _ _ c hn ?_
          rw [visNodes]
          refine List.mem_cons_of_mem _ (mem_visNodesScan_of_winScan ?_)
          rw [hwin]
          exact hcmem
        have hcsz : c.size = (visCount c : Int) := sizesOKv_setAttributes t c hcvis
        have hccoh : coherent c = true :=
          coherentL_mem hcmem (coherent_mk hcn).2.2
        show ((visCount c : Int)) = effectiveSize c
        rw [effectiveSize]
        by_cases hco : c.IsOpen
        · rw [if_pos hco, hcsz]
        · rw [if_neg hco]
          have : c.open_ = false := by
            simp only [Node.IsOpen] at hco
            exact Bool.not_eq_true _ ▸ Bool.eq_false_iff.mpr hco
          rw [visCount_coherent_closed hccoh this]
          rfl
      rw [hmap]

/-- Witness for C1 (amended): the invariant instantiated at Scenario A's
recomputed tree and its (open) root. -/
theorem size_invariant_visible_nodes_witness :
    1 ≤ (setAttributes scenarioA).size
    ∧ ((setAttributes scenarioA).IsOpen = false → (setAttributes scenarioA).size = 1)
    ∧ ((setAttributes scenarioA).IsOpen = true →
        (setAttributes scenarioA).size
          = 1 + ((setAttributes scenarioA).children.map effectiveSize).sum) :=
  size_invariant_visible_nodes scenarioA (by decide) _ (self_mem_visNodes _)

/-! ### Offset assignment and hidden descendants (C3) -/

mutual
/-- The offset assignment as claim C3 describes it: the same pre-order
pass as `setYOffsets`, but recursing into *all* children regardless of
whether the node hides them (written from the claim's words, to be compared
with the code's `setYOffsets`). -/
def specSetYOffsetsAt : Node → Int → Node
  | .mk v ir o ic os oe sz _ d cs, y =>
    .mk v ir o ic os oe sz y d (specSetYOffsetsScan cs y 0 0)

def specSetYOffsetsScan : List Node → Int → Int → Int → List Node
  | [], _, _, _ => []
  | c :: rest, ty, above, i =>
    let c1 := specSetYOffsetsAt c (ty + above + i + 1)
    c1 :: specSetYOffsetsScan rest ty (above + (c1.size - 1)) (i + 1)
end

/-- A wider tree: root (0) with subtrees X (1, child 11) and A (2, child 22)
and a leaf (3). -/
def wideTree : Node := (Root 0).Child
  [.inl ((Root 1).Child [.inr 11]), .inl ((Root 2).Child [.inr 22]), .inr 3]

/-- The model over `wideTree` after interactively closing A (cursor on
offset 3) and then X (cursor on offset 1): both subtrees are now hidden and
their children keep the offsets of earlier layouts (X1 keeps 2, A1 keeps
4), while the visible offsets are R=0, X=1, A=2, B=3. -/
def mStale : Model :=
  ((((Model.New wideTree 10).updates [.Down, .Down, .Down]).update .Toggle).updates
    [.GoToTop, .Down]).update .Toggle

/-- Counterexample to **C3** as stated: on `mStale`'s (reachable,
recomputed) tree, the code's offset pass leaves the descendant A1 hidden
behind the closed node A at its stale offset 4, whereas the
recurse-into-all-descendants assignment the claim describes gives it 3 — the
pass does *not* recurse into the descendants of a closed node. -/
theorem offset_assignment_counterexample :
    (getPath mStale.root [1, 0]).map Node.yOffset = some 4
    ∧ (getPath (setYOffsets mStale.root) [1, 0]).map Node.yOffset = some 4
    ∧ (getPath (specSetYOffsetsAt mStale.root mStale.root.yOffset) [1, 0]).map
        Node.yOffset = some 3 := by
  refine ⟨by decide, by decide, by decide⟩

/-- When a node's renderer window is empty, the offset pass leaves the
node's children (hence all its descendants) completely untouched. -/
theorem setYOffsetsScan_of_empty_window (cs : List Node) (j lo hi : Nat)
    (ty above i : Int) (h : Node.winScan cs j lo hi = []) :
    setYOffsetsScan cs j lo hi ty above i = cs := by
  induction cs generalizing j above i with
  | nil => rw [setYOffsetsScan]
  | cons c rest ih =>
    by_cases hw : lo ≤ j ∧ j < hi
    · rw [Node.winScan, if_pos hw] at h
      cases h
    · rw [Node.winScan, if_neg hw] at h
      rw [setYOffsetsScan]
      simp only [if_neg hw]
      rw [ih (j + 1) above i h]

/-- **C3** (amended): offset assignment does *not* recurse into the
descendants of a node whose renderer window is empty (a closed node) — their
subtrees are left untouched — so hidden descendants *retain* their
previously assigned offsets; these stale offsets are not reserved by the
size computation and can coincide with the offset of a later visible node:
in `mStale`, hidden X1 retains offset 2, which is the offset of the visible
later sibling A, while the visible offsets are exactly 0..root.size-1. -/
theorem offset_assignment_amended :
    (∀ (t : Node) (y : Int), t.visChildren = [] →
      (setYOffsetsAt t y).children = t.children)
    ∧ (getPath mStale.root [0, 0]).map Node.yOffset = some 2
    ∧ (getPath mStale.root [1]).map Node.yOffset = some 2
    ∧ (visNodes mStale.root).map (fun n => (n.value, n.yOffset))
        = [(0, 0), (1, 1), (2, 2), (3, 3)]
    ∧ mStale.root.size = 4 := by
  refine ⟨?_, by decide, by decide, by decide, by decide⟩
  intro t y hvis
  match t with
  | .mk v ir o ic os oe sz yo d cs =>
    rw [Node.visChildren] at hvis
    simp only [Node.children, Node.offStart, Node.offEnd] at hvis
    rw [setYOffsetsAt]
    simp only [Node.children]
    exact setYOffsetsScan_of_empty_window cs 0 os (cs.length - oe) y 0 0 hvis

/-- Witness for C3 (amended): the untouched-children conclusion at a
concrete closed node. -/
theorem offset_assignment_amended_witness :
    (setYOffsetsAt (((Root 5).Child [.inr 50]).Close) 9).children
      = (((Root 5).Child [.inr 50]).Close).children :=
  offset_assignment_amended.1 (((Root 5).Child [.inr 50]).Close) 9 rfl

/-! ### Toggle round trip (C6) -/

theorem scrub_open (t : Node) : (scrub t).open_ = t.open_ := by
  match t with
  | .mk .. => rfl

theorem scrub_offStart (t : Node) : (scrub t).offStart = t.offStart := by
  match t with
  | .mk .. => rfl

theorem scrub_offEnd (t : Node) : (scrub t).offEnd = t.offEnd := by
  match t with
  | .mk .. => rfl

/-- **C6**: for every model, closing and then reopening the (open) node at a
path — through `toggleNode`, with the full layout recomputation after each
step and no intervening structural change — restores the tree's total
`root.size` to its prior value; and toggling mutates only the node's own
open flag and renderer window, never its children's subtrees (descendants'
open flags are preserved while hidden). -/
theorem toggle_roundtrip_size (m : Model) (p : List Nat) (n : Node)
    (hget : getPath m.root p = some n)
    (ho : n.open_ = true) (hos : n.offStart = 0) (hoe : n.offEnd = 0)
    (hfresh : m.root.size = (visCount m.root : Int)) :
    ((m.toggleNode p false).toggleNode p true).root.size = m.root.size
    ∧ (∀ (b : Bool) (x : Node), (toggleMut b x).children = x.children) := by
  constructor
  · have hr1 : (m.toggleNode p false).root
        = setAttributes (updateAt m.root p (toggleMut false)) := toggleNode_root m p false
    have hr2 : ((m.toggleNode p false).toggleNode p true).root
        = setAttributes (updateAt (m.toggleNode p false).root p (toggleMut true)) :=
      toggleNode_root _ p true
    have hscrub1 : scrub (m.toggleNode p false).root
        = updateAt (scrub m.root) p (toggleMut false) := by
      rw [hr1, scrub_setAttributes, scrub_updateAt _ _ _ _ (scrub_toggleMut false)]
    have hscrub2 : scrub ((m.toggleNode p false).toggleNode p true).root
        = scrub m.root := by
      rw [hr2, scrub_setAttributes, scrub_updateAt _ _ _ _ (scrub_toggleMut true),
        hscrub1, updateAt_comp]
      refine updateAt_fix (n := scrub n) ?_ ?_
      · rw [getPath_scrub, hget]
        rfl
      · exact toggleMut_roundtrip (by rw [scrub_open, ho]) (by rw [scrub_offStart, hos])
          (by rw [scrub_offEnd, hoe])
    rw [hr2, setAttributes_size]
    rw [visCount_congr (a := updateAt (m.toggleNode p false).root p (toggleMut true))
      (b := m.root) ?_]
    · exact hfresh.symm
    · rw [← scrub_setAttributes (updateAt (m.toggleNode p false).root p (toggleMut true)),
        ← hr2]
      exact hscrub2
  · intro b x
    match x with
    | .mk v ir o ic os oe sz yo d cs =>
      rw [toggleMut_mk]
      cases b <;> rfl

/-- Witness for C6: closing and reopening node A of Scenario A's model
restores `root.size = 4`. -/
theorem toggle_roundtrip_size_witness :
    ((scenarioAModel.toggleNode [0] false).toggleNode [0] true).root.size
      = scenarioAModel.root.size
    ∧ (∀ (b : Bool) (x : Node), (toggleMut b x).children = x.children) :=
  toggle_roundtrip_size scenarioAModel [0] _ rfl (by decide) (by decide) (by decide)
    (by decide)

end BubblesTree
